import Mathlib

/-!
# Verification of the HonduCasa image ingestion pipeline

Shallow embedding of the client-side image upload pipeline:

* `src/utils/thumbnail.ts` — thumbnail dimension computation
  (`generateThumbnail`), the three fixed presets (`generateThumbnails`),
  and batch generation (`generateThumbnailsBatch`).
* the image upload module (`uploadImagesOptimized`,
  `uploadImagesWithFallback`) — progress tracking, per-image and
  batch-level error handling, storage path construction.

JavaScript numbers appearing in the dimension arithmetic are modelled as
rationals (`ℚ`); machine floating point rounding is outside the model.
Binary blob contents (the image pixel data) are opaque: only names,
dimensions, error outcomes and storage paths are modelled.
-/

namespace HonduCasa

/-! ## Thumbnail generator (`src/utils/thumbnail.ts`)

`generateThumbnail(file, maxWidth, maxHeight, quality)` decodes the image
and computes target dimensions as follows (lines 16–30 of thumbnail.ts):

```js
const aspectRatio = img.width / img.height
let { width, height } = img
if (width > height) {
  if (width > maxWidth) { width = maxWidth; height = width / aspectRatio }
} else {
  if (height > maxHeight) { height = maxHeight; width = height * aspectRatio }
}
```
-/

/-- Width/height pair of an image, in rational pixels. -/
structure Dims where
  width : ℚ
  height : ℚ
  deriving DecidableEq, Repr

/-- Embedding of the dimension computation of `generateThumbnail`:
aspect-ratio-preserving clamp, where only the branch for the dominant
dimension is taken. -/
def thumbDims (w h maxWidth maxHeight : ℚ) : Dims :=
  let aspectRatio := w / h
  if w > h then
    if w > maxWidth then ⟨maxWidth, maxWidth / aspectRatio⟩ else ⟨w, h⟩
  else
    if h > maxHeight then ⟨maxHeight * aspectRatio, maxHeight⟩ else ⟨w, h⟩

/-- Embedding of `generateThumbnails`: the three preset variants
(small: 300×200, medium: 600×400, large: 800×600), at the dimension level.
The encoder qualities (0.8 / 0.85 / 0.9) do not affect dimensions and are
not modelled. -/
def generateThumbnailsDims (w h : ℚ) : Dims × Dims × Dims :=
  (thumbDims w h 300 200, thumbDims w h 600 400, thumbDims w h 800 600)

/-- Helper: all dimension facts about one preset application, proved by the
four-way case split of `thumbDims`. -/
theorem thumbDims_facts (w h maxW maxH : ℚ) (hw : 0 < w) (hh : 0 < h)
    (hmH : 0 < maxH) (hWH : maxH ≤ maxW) :
    (thumbDims w h maxW maxH).width ≤ maxW ∧
    (w ≤ h → (thumbDims w h maxW maxH).height ≤ maxH) ∧
    ((thumbDims w h maxW maxH).height ≤ (thumbDims w h maxW maxH).width →
      (thumbDims w h maxW maxH).width ≤ maxW) ∧
    ((thumbDims w h maxW maxH).width ≤ (thumbDims w h maxW maxH).height →
      (thumbDims w h maxW maxH).height ≤ maxH) ∧
    (thumbDims w h maxW maxH).width * h = (thumbDims w h maxW maxH).height * w := by
  have hw0 : w ≠ 0 := ne_of_gt hw
  have hh0 : h ≠ 0 := ne_of_gt hh
  unfold thumbDims
  split_ifs with h1 h2 h3
  · -- landscape, clamped: ⟨maxW, maxW / (w / h)⟩
    have hd : maxW / (w / h) = maxW * h / w := by
      field_simp
    simp only [hd]
    have hWpos : 0 < maxW := lt_of_lt_of_le hmH hWH
    have hlt : maxW * h / w < maxW := by
      rw [div_lt_iff₀ hw]
      nlinarith
    refine ⟨le_refl _, ?_, fun _ => le_refl _, ?_, ?_⟩
    · intro hle; linarith
    · intro hle; linarith
    · field_simp
  · -- landscape, no clamp: ⟨w, h⟩
    refine ⟨le_of_not_lt h2, ?_, fun _ => le_of_not_lt h2, ?_, by ring⟩
    · intro hle; linarith
    · intro hle; linarith
  · -- portrait/square, clamped: ⟨maxH * (w / h), maxH⟩
    have hwh : w / h ≤ 1 := by
      rw [div_le_one hh]
      exact le_of_not_lt h1
    have hwid : maxH * (w / h) ≤ maxH := by
      calc maxH * (w / h) ≤ maxH * 1 := by
            exact mul_le_mul_of_nonneg_left hwh (le_of_lt hmH)
        _ = maxH := mul_one _
    refine ⟨le_trans hwid hWH, fun _ => le_refl _, fun _ => le_trans hwid hWH,
      fun _ => le_refl _, ?_⟩
    field_simp
  · -- portrait/square, no clamp: ⟨w, h⟩
    have hwh : w ≤ h := le_of_not_lt h1
    have hhm : h ≤ maxH := le_of_not_lt h3
    exact ⟨le_trans (le_trans hwh hhm) hWH, fun _ => hhm,
      fun _ => le_trans (le_trans hwh hhm) hWH, fun _ => hhm, by ring⟩

/-- **C7** (counterexample): the claim says every small variant fits within
300×200. A 400×350 landscape source only gets its width clamped
(`width > height` branch), giving a small variant of 300×262.5, whose
height exceeds the 200 bound. -/
theorem C7_fit_counterexample :
    ¬ ((thumbDims 400 350 300 200).width ≤ 300 ∧
       (thumbDims 400 350 300 200).height ≤ 200) := by
  norm_num [thumbDims]

/-- **C7** (amended): for every positive-dimension decodable source, each
variant's width fits the preset maximum width (small ≤ 300, medium ≤ 600,
large ≤ 800); the height bound (200/400/600) additionally holds whenever the
source is portrait or square (`w ≤ h`), but a landscape source may exceed it. -/
theorem C7_amended_width_bounds (w h : ℚ) (hw : 0 < w) (hh : 0 < h) :
    ((generateThumbnailsDims w h).1.width ≤ 300 ∧
      (w ≤ h → (generateThumbnailsDims w h).1.height ≤ 200)) ∧
    ((generateThumbnailsDims w h).2.1.width ≤ 600 ∧
      (w ≤ h → (generateThumbnailsDims w h).2.1.height ≤ 400)) ∧
    ((generateThumbnailsDims w h).2.2.width ≤ 800 ∧
      (w ≤ h → (generateThumbnailsDims w h).2.2.height ≤ 600)) := by
  have hs := thumbDims_facts w h 300 200 hw hh (by norm_num) (by norm_num)
  have hm := thumbDims_facts w h 600 400 hw hh (by norm_num) (by norm_num)
  have hl := thumbDims_facts w h 800 600 hw hh (by norm_num) (by norm_num)
  simp only [generateThumbnailsDims]
  exact ⟨⟨hs.1, hs.2.1⟩, ⟨hm.1, hm.2.1⟩, ⟨hl.1, hl.2.1⟩⟩

/-- Witness for `C7_amended_width_bounds` at the concrete 400×350 input. -/
theorem C7_amended_width_bounds_witness :
    (0:ℚ) < 400 ∧ (0:ℚ) < 350 ∧
    (((generateThumbnailsDims 400 350).1.width ≤ 300 ∧
      ((400:ℚ) ≤ 350 → (generateThumbnailsDims 400 350).1.height ≤ 200)) ∧
    ((generateThumbnailsDims 400 350).2.1.width ≤ 600 ∧
      ((400:ℚ) ≤ 350 → (generateThumbnailsDims 400 350).2.1.height ≤ 400)) ∧
    ((generateThumbnailsDims 400 350).2.2.width ≤ 800 ∧
      ((400:ℚ) ≤ 350 → (generateThumbnailsDims 400 350).2.2.height ≤ 600))) :=
  ⟨by norm_num, by norm_num,
    C7_amended_width_bounds 400 350 (by norm_num) (by norm_num)⟩

/-- **C8**: for every positive-dimension source, `generateThumbnails` yields
exactly three variants (small/medium/large — the triple returned by
`generateThumbnailsDims`), each variant's longer dimension is bounded by the
preset bound for that dimension (width by maxWidth when width is the longer,
height by maxHeight when height is the longer), and each variant preserves
the source aspect ratio exactly (`width * h = height * w`). -/
theorem C8_longer_dim_and_aspect (w h : ℚ) (hw : 0 < w) (hh : 0 < h) :
    (((generateThumbnailsDims w h).1.height ≤ (generateThumbnailsDims w h).1.width →
        (generateThumbnailsDims w h).1.width ≤ 300) ∧
      ((generateThumbnailsDims w h).1.width ≤ (generateThumbnailsDims w h).1.height →
        (generateThumbnailsDims w h).1.height ≤ 200) ∧
      (generateThumbnailsDims w h).1.width * h = (generateThumbnailsDims w h).1.height * w) ∧
    (((generateThumbnailsDims w h).2.1.height ≤ (generateThumbnailsDims w h).2.1.width →
        (generateThumbnailsDims w h).2.1.width ≤ 600) ∧
      ((generateThumbnailsDims w h).2.1.width ≤ (generateThumbnailsDims w h).2.1.height →
        (generateThumbnailsDims w h).2.1.height ≤ 400) ∧
      (generateThumbnailsDims w h).2.1.width * h = (generateThumbnailsDims w h).2.1.height * w) ∧
    (((generateThumbnailsDims w h).2.2.height ≤ (generateThumbnailsDims w h).2.2.width →
        (generateThumbnailsDims w h).2.2.width ≤ 800) ∧
      ((generateThumbnailsDims w h).2.2.width ≤ (generateThumbnailsDims w h).2.2.height →
        (generateThumbnailsDims w h).2.2.height ≤ 600) ∧
      (generateThumbnailsDims w h).2.2.width * h = (generateThumbnailsDims w h).2.2.height * w) := by
  have hs := thumbDims_facts w h 300 200 hw hh (by norm_num) (by norm_num)
  have hm := thumbDims_facts w h 600 400 hw hh (by norm_num) (by norm_num)
  have hl := thumbDims_facts w h 800 600 hw hh (by norm_num) (by norm_num)
  simp only [generateThumbnailsDims]
  exact ⟨⟨hs.2.2.1, hs.2.2.2.1, hs.2.2.2.2⟩, ⟨hm.2.2.1, hm.2.2.2.1, hm.2.2.2.2⟩,
    ⟨hl.2.2.1, hl.2.2.2.1, hl.2.2.2.2⟩⟩

/-- Witness for `C8_longer_dim_and_aspect` at the concrete 400×350 input. -/
theorem C8_longer_dim_and_aspect_witness :
    (0:ℚ) < 400 ∧
    ((generateThumbnailsDims 400 350).1.height ≤ (generateThumbnailsDims 400 350).1.width →
      (generateThumbnailsDims 400 350).1.width ≤ 300) ∧
    (generateThumbnailsDims 400 350).1.width * 350 =
      (generateThumbnailsDims 400 350).1.height * 400 :=
  ⟨by norm_num,
    (C8_longer_dim_and_aspect 400 350 (by norm_num) (by norm_num)).1.1,
    (C8_longer_dim_and_aspect 400 350 (by norm_num) (by norm_num)).1.2.2⟩

/-! ## Decimal rendering of timestamps

JavaScript template interpolation `${timestamp}` renders the integer
timestamp in decimal. We model it with a fuel-based structural renderer
(kernel-reducible, so concrete runs evaluate by `rfl`/`decide`), and prove
it injective via a parse-back round trip through `Nat.digits`. -/

/-- The character for one decimal digit. -/
def digitChar : Nat → Char
  | 0 => '0' | 1 => '1' | 2 => '2' | 3 => '3' | 4 => '4'
  | 5 => '5' | 6 => '6' | 7 => '7' | 8 => '8' | _ => '9'

/-- Numeric value of a decimal digit character. -/
def charDigit (c : Char) : Nat := c.toNat - 48

/-- Big-endian decimal digits of `n`, fuel-based; `acc` is the already
rendered low-order suffix. -/
def natToDigitsAux : Nat → Nat → List Char → List Char
  | 0, _, acc => acc
  | fuel + 1, n, acc =>
    if n < 10 then digitChar (n % 10) :: acc
    else natToDigitsAux fuel (n / 10) (digitChar (n % 10) :: acc)

/-- Decimal rendering of a natural number, as `${n}` renders it. -/
def natRepr (n : Nat) : String := ⟨natToDigitsAux (n + 1) n []⟩

theorem charDigit_digitChar {d : Nat} (hd : d < 10) : charDigit (digitChar d) = d := by
  interval_cases d <;> decide

theorem digitChar_isDigit {d : Nat} (hd : d < 10) : (digitChar d).isDigit = true := by
  interval_cases d <;> decide

/-- The fuel-based renderer agrees with `Nat.digits` (mapped to characters,
big-endian), with the zero special case. -/
theorem natToDigitsAux_eq :
    ∀ (fuel n : Nat), n < fuel → ∀ acc, natToDigitsAux fuel n acc =
      (if n = 0 then ['0'] else ((Nat.digits 10 n).map digitChar).reverse) ++ acc := by
  intro fuel
  induction fuel with
  | zero => intro n hn; omega
  | succ fuel ih =>
    intro n hn acc
    by_cases h10 : n < 10
    · rcases Nat.eq_zero_or_pos n with h0 | h0
      · subst h0; simp [natToDigitsAux, digitChar]
      · have hdig : Nat.digits 10 n = [n] := Nat.digits_of_lt 10 n (by omega) h10
        rw [show natToDigitsAux (fuel + 1) n acc = digitChar (n % 10) :: acc by
          simp [natToDigitsAux, h10]]
        rw [hdig, if_neg (by omega), Nat.mod_eq_of_lt h10]
        simp
    · have hpos : 0 < n := by omega
      have hq : n / 10 < fuel := by
        have := Nat.div_lt_self hpos (by norm_num : 1 < 10)
        omega
      have hq0 : n / 10 ≠ 0 := by
        have := Nat.div_pos (by omega : 10 ≤ n) (by norm_num : 0 < 10)
        omega
      rw [show natToDigitsAux (fuel + 1) n acc =
            natToDigitsAux fuel (n / 10) (digitChar (n % 10) :: acc) by
          simp [natToDigitsAux, h10],
        ih (n / 10) hq, Nat.digits_def' (by norm_num : 1 < 10) hpos]
      simp [hq0, if_neg (by omega : ¬ n = 0)]

/-- Parse of a big-endian digit-character list. -/
def parseNat (s : String) : Nat := s.data.foldl (fun a c => 10 * a + charDigit c) 0

theorem foldr_digits_ofDigits (ds : List Nat) (h : ∀ d ∈ ds, d < 10) :
    (ds.map digitChar).foldr (fun c a => 10 * a + charDigit c) 0 = Nat.ofDigits 10 ds := by
  induction ds with
  | nil => rfl
  | cons d ds ih =>
    have hd : d < 10 := h d (List.mem_cons_self d ds)
    have hds : ∀ x ∈ ds, x < 10 := fun x hx => h x (List.mem_cons_of_mem d hx)
    simp only [List.map_cons, List.foldr_cons, ih hds, charDigit_digitChar hd,
      Nat.ofDigits_cons]
    ring

/-- Round trip: parsing the rendering recovers the number. -/
theorem parseNat_natRepr (n : Nat) : parseNat (natRepr n) = n := by
  have hdata : (natRepr n).data =
      (if n = 0 then ['0'] else ((Nat.digits 10 n).map digitChar).reverse) ++ [] := by
    exact congrArg String.data
      (congrArg String.mk (natToDigitsAux_eq (n + 1) n (Nat.lt_succ_self n) []))
  unfold parseNat
  rw [hdata]
  rcases Nat.eq_zero_or_pos n with h0 | h0
  · subst h0; decide
  · rw [if_neg (by omega), List.append_nil, List.foldl_reverse,
      foldr_digits_ofDigits _ (fun d hd => Nat.digits_lt_base (by norm_num) hd),
      Nat.ofDigits_digits]

/-- Decimal rendering is injective. -/
theorem natRepr_inj {m n : Nat} (h : natRepr m = natRepr n) : m = n := by
  have := congrArg parseNat h
  rwa [parseNat_natRepr, parseNat_natRepr] at this

/-- The rendering is a nonempty string of decimal digit characters. -/
theorem natRepr_digits (n : Nat) :
    (natRepr n).data ≠ [] ∧ ∀ c ∈ (natRepr n).data, c.isDigit = true := by
  have hdata : (natRepr n).data =
      (if n = 0 then ['0'] else ((Nat.digits 10 n).map digitChar).reverse) ++ [] :=
    congrArg String.data
      (congrArg String.mk (natToDigitsAux_eq (n + 1) n (Nat.lt_succ_self n) []))
  rw [hdata, List.append_nil]
  rcases Nat.eq_zero_or_pos n with h0 | h0
  · subst h0; exact ⟨by decide, by decide⟩
  · rw [if_neg (by omega)]
    constructor
    · simp only [ne_eq, List.reverse_eq_nil_iff, List.map_eq_nil_iff]
      exact Nat.digits_ne_nil_iff_ne_zero.mpr (by omega)
    · intro c hc
      rw [List.mem_reverse] at hc
      obtain ⟨d, hd, rfl⟩ := List.mem_map.mp hc
      exact digitChar_isDigit (Nat.digits_lt_base (by norm_num) hd)

/-! ## Storage paths

`uploadImagesOptimized` builds, per image,
`baseFileName = `{propertyId}/{timestamp}``and the four object paths
`{base}.{ext}`, `{base}_small.{ext}`, `{base}_medium.{ext}`,
`{base}_large.{ext}`, where `ext = file.name.split('.').pop()`. -/

/-- JavaScript `split('.')` over the characters of a string. -/
def splitOnDot : List Char → List (List Char)
  | [] => [[]]
  | c :: cs =>
    match splitOnDot cs with
    | [] => [[]]
    | g :: gs => if c = '.' then [] :: g :: gs else (c :: g) :: gs

/-- `file.name.split('.').pop()` — the final dot-separated group. -/
def fileExt (name : String) : String := ⟨(splitOnDot name.data).getLastD []⟩

/-- The persisted record of one uploaded image: four storage paths. -/
structure ImageData where
  original : String
  small : String
  medium : String
  large : String
  deriving DecidableEq, Repr

/-- The four storage paths for one image, from the property id, the per-image
timestamp (`Date.now() + index`) and the file extension. -/
def imagePaths (propertyId : String) (timestamp : Nat) (ext : String) : ImageData :=
  let baseFileName := propertyId ++ "/" ++ natRepr timestamp
  ⟨baseFileName ++ "." ++ ext,
    baseFileName ++ "_small." ++ ext,
    baseFileName ++ "_medium." ++ ext,
    baseFileName ++ "_large." ++ ext⟩

/-- The four paths of a record, as a list. -/
def pathsOf (d : ImageData) : List String := [d.original, d.small, d.medium, d.large]

/-! ### Path distinctness machinery -/

/-- Two all-digit prefixes followed by non-digit-headed suffixes can be
cancelled from a list equation. -/
theorem digits_append_inj : ∀ (a b : List Char) {u v : List Char},
    (∀ c ∈ a, c.isDigit = true) → (∀ c ∈ b, c.isDigit = true) →
    (∀ c ∈ u.head?, c.isDigit = false) → (∀ c ∈ v.head?, c.isDigit = false) →
    a ++ u = b ++ v → a = b ∧ u = v := by
  intro a
  induction a with
  | nil =>
    intro b u v _ hb hu _ h
    cases b with
    | nil => exact ⟨rfl, h⟩
    | cons d b' =>
      exfalso
      have hd : d.isDigit = true := hb d (List.mem_cons_self d b')
      have : u.head? = some d := by
        simpa using congrArg List.head? h
      have := hu d (by simp [this])
      simp [hd] at this
  | cons c a' ih =>
    intro b u v ha hb hu hv h
    cases b with
    | nil =>
      exfalso
      have hc : c.isDigit = true := ha c (List.mem_cons_self c a')
      have : v.head? = some c := by
        simpa using (congrArg List.head? h).symm
      have := hv c (by simp [this])
      simp [hc] at this
    | cons d b' =>
      simp only [List.cons_append, List.cons.injEq] at h
      obtain ⟨rfl, htail⟩ := h
      obtain ⟨ha', hu'⟩ := ih b' (fun x hx => ha x (List.mem_cons_of_mem _ hx))
        (fun x hx => hb x (List.mem_cons_of_mem _ hx)) hu hv htail
      exact ⟨by rw [ha'], hu'⟩

/-- The four size suffixes appearing in the path templates. -/
def sizeSeps : List String := [".", "_small.", "_medium.", "_large."]

theorem sep_head_not_digit {sep : String} (hs : sep ∈ sizeSeps) (e : String) :
    ∀ c ∈ (sep.data ++ e.data).head?, c.isDigit = false := by
  fin_cases hs <;> · intro c hc; simp_all; subst hc; decide

/-- Paths with the same base but different size suffixes are distinct. -/
theorem path_ne_of_sep_ne {base sep1 sep2 e : String} (hne : sep1 ≠ sep2) :
    base ++ sep1 ++ e ≠ base ++ sep2 ++ e := by
  intro h
  apply hne
  have hdata := congrArg String.data h
  simp only [String.data_append, List.append_assoc] at hdata
  exact String.ext (List.append_cancel_right (List.append_cancel_left hdata))

/-- Paths with different timestamps are distinct, whatever their size suffixes
and extensions. -/
theorem path_ne_of_timestamp_ne {pid e1 e2 sep1 sep2 : String} {t1 t2 : Nat}
    (hne : t1 ≠ t2) (hs1 : sep1 ∈ sizeSeps) (hs2 : sep2 ∈ sizeSeps) :
    pid ++ "/" ++ natRepr t1 ++ sep1 ++ e1 ≠ pid ++ "/" ++ natRepr t2 ++ sep2 ++ e2 := by
  intro h
  apply hne
  have hdata := congrArg String.data h
  simp only [String.data_append, List.append_assoc] at hdata
  have hcancel := List.append_cancel_left (List.append_cancel_left hdata)
  have h1 := natRepr_digits t1
  have h2 := natRepr_digits t2
  have := digits_append_inj (natRepr t1).data (natRepr t2).data h1.2 h2.2
    (sep_head_not_digit hs1 e1) (sep_head_not_digit hs2 e2) hcancel
  exact natRepr_inj (String.ext this.1)

/-- The four paths of one record, in template form. -/
theorem imagePaths_eq (pid : String) (t : Nat) (e : String) :
    pathsOf (imagePaths pid t e) = sizeSeps.map (fun sep => pid ++ "/" ++ natRepr t ++ sep ++ e) := by
  simp only [pathsOf, imagePaths, sizeSeps, List.map_cons, List.map_nil]

/-- Within one record the four paths are pairwise distinct. -/
theorem imagePaths_nodup (pid : String) (t : Nat) (e : String) :
    (pathsOf (imagePaths pid t e)).Nodup := by
  rw [imagePaths_eq]
  refine List.Nodup.map_on ?_ (by decide)
  intro s1 h1 s2 h2 heq
  by_contra hne
  exact path_ne_of_sep_ne hne heq

/-- Across two records with different timestamps, all paths are distinct. -/
theorem imagePaths_cross (pid e1 e2 : String) {t1 t2 : Nat} (hne : t1 ≠ t2) :
    ∀ p ∈ pathsOf (imagePaths pid t1 e1), ∀ q ∈ pathsOf (imagePaths pid t2 e2), p ≠ q := by
  intro p hp q hq
  rw [imagePaths_eq] at hp hq
  obtain ⟨s1, hs1, rfl⟩ := List.mem_map.mp hp
  obtain ⟨s2, hs2, rfl⟩ := List.mem_map.mp hq
  exact path_ne_of_timestamp_ne hne hs1 hs2

/-! ## Upload pipeline (`uploadImagesOptimized` / `uploadImagesWithFallback`)

The pipeline is embedded as a deterministic function over an *environment*
giving the outcomes of the external collaborators: the clock samples
(`Date.now()` at the start of each per-image task), the per-image thumbnail
generation outcomes, and the storage `upload` outcomes per path.  The
single-threaded cooperative scheduler is modelled by the canonical schedule
that runs the per-image tasks to completion in index order; thrown
JavaScript exceptions are `Except.error`; the progress observer `onProgress`
is modelled as a pure trace of emitted snapshots (it is assumed not to
throw), and thrown errors carry their `.message` string. -/

/-- Status of an upload progress entry. -/
inductive Status
  | generating
  | uploading
  | completed
  | error
  deriving DecidableEq, Repr

/-- One per-image progress entry (`UploadProgress` in the source). -/
structure UploadProgress where
  imageIndex : Nat
  fileName : String
  progress : Nat
  status : Status
  error : Option String := none
  deriving DecidableEq, Repr

/-- The aggregate result (`UploadResult` in the source); error indices are
integers because the synthetic batch-failure entry uses index `-1`. -/
structure UploadResult where
  success : Bool
  images : List ImageData
  errors : List (Int × String)
  deriving DecidableEq, Repr

/-- Outcomes of the external collaborators for one batch invocation. -/
structure Env where
  /-- names of the selected files (blob contents are opaque) -/
  files : List String
  propertyId : String
  /-- `some msg` if `createClient()` throws -/
  clientThrows : Option String
  /-- the `Date.now()` sample taken at the start of per-image task `i` -/
  now : Nat → Nat
  /-- `some msg` if `generateThumbnails` rejects for image `i` -/
  thumbOutcome : Nat → Option String
  /-- `some msg` if the storage `upload` of the given path fails -/
  putOutcome : String → Option String

/-- A snapshot handed to `onProgress` (`Object.values(progressMap)`). -/
abbrev Snapshot := List UploadProgress

/-- Mutable state of one optimized run: the progress map (indexed in order)
and the trace of snapshots emitted so far. -/
structure PState where
  progress : List UploadProgress
  trace : List Snapshot
  deriving DecidableEq, Repr

/-- Lines 39–46: one fresh `generating` entry per file. -/
def initProgressAux : Nat → List String → List UploadProgress
  | _, [] => []
  | i, name :: rest =>
    ⟨i, name, 0, .generating, none⟩ :: initProgressAux (i + 1) rest

def initProgress (files : List String) : List UploadProgress := initProgressAux 0 files

/-- `updateProgress()`: emit the current snapshot to the observer. -/
def emit (s : PState) : Snapshot × PState := (s.progress, { s with trace := s.trace ++ [s.progress] })

/-- `progressMap[index] = …`: point update of the entry with the given index. -/
def updateEntry (l : List UploadProgress) (i : Nat) (f : UploadProgress → UploadProgress) :
    List UploadProgress :=
  l.map fun e => if e.imageIndex = i then f e else e

/-- The entry currently stored for index `i`. -/
def cur (s : PState) (i : Nat) : Option UploadProgress :=
  s.progress.find? fun e => e.imageIndex == i

/-- One update-then-notify step: mutate entry `i`, then `updateProgress()`. -/
def step (s : PState) (i : Nat) (f : UploadProgress → UploadProgress) : PState :=
  (emit { s with progress := updateEntry s.progress i f }).2

/-- Embedding of `generateThumbnailsBatch` (thumbnail.ts lines 94–116):
`Promise.all` over all files, which rejects with the first failing image's
error if any `generateThumbnails` call rejects.  The generated blobs are
opaque, so a successful batch carries no data. -/
def generateThumbnailsBatchE (env : Env) : Except String Unit :=
  match (List.range env.files.length).findSome? (fun i => env.thumbOutcome i) with
  | some e => .error e
  | none => .ok ()

/-- The first failing of the four parallel puts, checked in the source order
original, small, medium, large (lines 81–84). -/
def firstPutError (env : Env) (d : ImageData) : Option String :=
  match env.putOutcome d.original with
  | some e => some e
  | none =>
    match env.putOutcome d.small with
    | some e => some e
    | none =>
      match env.putOutcome d.medium with
      | some e => some e
      | none => env.putOutcome d.large

/-- Settled outcome of one per-image task. -/
inductive OneResult
  | ok (index : Nat) (data : ImageData)
  | err (index : Nat) (msg : String)
  deriving DecidableEq, Repr

/-- Per-image task of the optimized path (lines 60–110): mark `uploading` at
25%, derive the four paths from `Date.now() + index`, run the four puts; on
success mark `completed` at 100%, on any failure catch at the per-image
boundary, mark `error` and reset progress to 0. -/
def uploadOne (env : Env) (i : Nat) (name : String) (s : PState) : OneResult × PState :=
  let s1 := step s i fun e => { e with status := .uploading, progress := 25 }
  let timestamp := env.now i + i
  let data := imagePaths env.propertyId timestamp (fileExt name)
  match firstPutError env data with
  | none =>
    (.ok i data, step s1 i fun e => { e with progress := 100, status := .completed })
  | some msg =>
    (.err i msg, step s1 i fun e => { e with status := .error, error := some msg, progress := 0 })

/-- The per-image tasks, run under the canonical in-index-order schedule. -/
def runUploadsAux (env : Env) : Nat → List String → PState → List OneResult × PState
  | _, [], s => ([], s)
  | i, name :: rest, s =>
    let p := uploadOne env i name s
    let q := runUploadsAux env (i + 1) rest p.2
    (p.1 :: q.1, q.2)

/-- Pure mirror of one per-image task's settled outcome. -/
def oneOutcome (env : Env) (i : Nat) (name : String) : OneResult :=
  let data := imagePaths env.propertyId (env.now i + i) (fileExt name)
  match firstPutError env data with
  | none => .ok i data
  | some msg => .err i msg

/-- Pure mirror of all per-image outcomes, in index order. -/
def outcomes (env : Env) : Nat → List String → List OneResult
  | _, [] => []
  | i, name :: rest => oneOutcome env i name :: outcomes env (i + 1) rest

/-- Lines 116–122: `results[result.index] = result.data` over an (initially
empty, hence all-`undefined`) array — modelled as a none-initialized slot
list of the batch size. -/
def assignImages (n : Nat) (rs : List OneResult) : List (Option ImageData) :=
  rs.foldl (fun acc r =>
    match r with
    | .ok i d => acc.set i (some d)
    | .err _ _ => acc) (List.replicate n none)

/-- Lines 116–122: `errors.push({index, error})` for each failed task. -/
def collectErrors (rs : List OneResult) : List (Int × String) :=
  rs.foldl (fun acc r =>
    match r with
    | .ok _ _ => acc
    | .err i m => acc ++ [((i : Int), m)]) []

/-- Embedding of `uploadImagesOptimized` (lines 28–144).  `createClient()`
runs before the `try` block, so its exception propagates to the caller;
the thumbnail-stage rejection is caught by the outer `catch`, which marks
every entry `error` with the batch message (progress untouched) and returns
the synthetic `{index: -1}` failure; per-image failures are handled inside
`uploadOne`.  The returned state carries the final progress map and the
full snapshot trace. -/
def uploadImagesOptimizedE (env : Env) : Except String (UploadResult × PState) :=
  match env.clientThrows with
  | some e => .error e
  | none =>
    let s0 : PState := ⟨initProgress env.files, []⟩
    let s1 := (emit s0).2
    match generateThumbnailsBatchE env with
    | .error e =>
      let s2 := (emit { s1 with progress :=
        (s1.progress.map fun en => { en with status := .error, error := some e }) }).2
      .ok ({ success := false, images := [], errors := [((-1 : Int), e)] }, s2)
    | .ok _ =>
      let p := runUploadsAux env 0 env.files s1
      let errors := collectErrors p.1
      .ok ({ success := errors.isEmpty,
             images := (assignImages env.files.length p.1).filterMap id,
             errors := errors }, p.2)

/-- Per-image task of the fallback path (lines 165–189): a single put of the
original bytes; on success all four record fields are the same single path.
No progress entry is touched. -/
def uploadSimpleOne (env : Env) (i : Nat) (name : String) : OneResult :=
  let timestamp := env.now i + i
  let originalPath := env.propertyId ++ "/" ++ natRepr timestamp ++ "." ++ fileExt name
  match env.putOutcome originalPath with
  | none => .ok i ⟨originalPath, originalPath, originalPath, originalPath⟩
  | some e => .err i e

def uploadSimpleResults (env : Env) : Nat → List String → List OneResult
  | _, [] => []
  | i, name :: rest => uploadSimpleOne env i name :: uploadSimpleResults env (i + 1) rest

/-- Embedding of the fallback branch of `uploadImagesWithFallback`
(lines 157–206): `createClient()` may throw (propagating out), otherwise all
files are uploaded original-only; no progress map exists and no snapshot is
ever emitted. -/
def uploadSimpleRun (env : Env) : Except String (UploadResult × PState) :=
  match env.clientThrows with
  | some e => .error e
  | none =>
    let rs := uploadSimpleResults env 0 env.files
    let errors := collectErrors rs
    .ok ({ success := errors.isEmpty,
           images := (assignImages env.files.length rs).filterMap id,
           errors := errors }, ⟨[], []⟩)

/-- Embedding of `uploadImagesWithFallback` (lines 149–207): try the
optimized path; only a *raised* exception reaches the `catch`, which retries
with the simple path. -/
def uploadImagesWithFallbackE (env : Env) : Except String (UploadResult × PState) :=
  match uploadImagesOptimizedE env with
  | .ok r => .ok r
  | .error _ => uploadSimpleRun env

/-! ## Basic facts about the pipeline -/

/-- The settled outcome of one per-image task does not depend on the
progress state it runs in. -/
theorem uploadOne_fst (env : Env) (i : Nat) (name : String) (s : PState) :
    (uploadOne env i name s).1 = oneOutcome env i name := by
  unfold uploadOne oneOutcome
  cases h : firstPutError env (imagePaths env.propertyId (env.now i + i) (fileExt name)) <;>
    simp [h]

/-- The settled outcomes of the batch are the pure per-image outcomes. -/
theorem runUploadsAux_fst (env : Env) :
    ∀ (names : List String) (k : Nat) (s : PState),
      (runUploadsAux env k names s).1 = outcomes env k names := by
  intro names
  induction names with
  | nil => intro k s; rfl
  | cons name rest ih =>
    intro k s
    simp only [runUploadsAux, outcomes, uploadOne_fst, ih]

/-- Characterization of a batch-start failure (the outer `catch`):
the synthetic `{index: -1}` result, and every progress entry marked `error`
with the batch message. -/
theorem optimized_batch_failure (env : Env) (e : String) (hc : env.clientThrows = none)
    (hth : generateThumbnailsBatchE env = .error e) :
    ∃ s : PState, uploadImagesOptimizedE env =
        .ok (⟨false, [], [((-1 : Int), e)]⟩, s) ∧
      ∀ en ∈ s.progress, en.status = .error ∧ en.error = some e := by
  unfold uploadImagesOptimizedE
  rw [hc, hth]
  refine ⟨_, rfl, ?_⟩
  intro en hen
  simp only [emit] at hen
  obtain ⟨x, _, rfl⟩ := List.mem_map.mp hen
  exact ⟨rfl, rfl⟩

/-- The optimized path returns (never raises) once `createClient()` has
succeeded: both the batch-failure branch and the per-image branch end in a
returned `UploadResult`. -/
theorem optimized_returns (env : Env) (hc : env.clientThrows = none) :
    ∃ r, uploadImagesOptimizedE env = .ok r := by
  unfold uploadImagesOptimizedE
  rw [hc]
  cases generateThumbnailsBatchE env <;> exact ⟨_, rfl⟩

/-! ## Concrete environments used as witnesses and counterexamples -/

/-- A two-file batch where every collaborator succeeds. -/
def envOk : Env :=
  { files := ["a.jpg", "b.png"], propertyId := "prop", clientThrows := none,
    now := fun _ => 5, thumbOutcome := fun _ => none, putOutcome := fun _ => none }

/-- A two-file batch where image 0's thumbnail generation (decode) fails and
everything else would succeed. -/
def envThumbFail : Env :=
  { files := ["a.jpg", "b.jpg"], propertyId := "p", clientThrows := none,
    now := fun _ => 0, thumbOutcome := fun i => if i = 0 then some "decode failed" else none,
    putOutcome := fun _ => none }

/-! ## C9 -/

/-- **C9**: provided `createClient()` and the progress observer do not throw
(the observer is pure in this model), `uploadImagesOptimized` always returns
an `UploadResult` — every exception is converted to a per-image error entry
or the synthetic batch failure — and hence `uploadImagesWithFallback` just
passes its result through: the fallback branch is unreachable. -/
theorem C9_optimized_never_raises (env : Env) (hc : env.clientThrows = none) :
    (∃ r, uploadImagesOptimizedE env = .ok r) ∧
    uploadImagesWithFallbackE env = uploadImagesOptimizedE env := by
  obtain ⟨r, hr⟩ := optimized_returns env hc
  refine ⟨⟨r, hr⟩, ?_⟩
  unfold uploadImagesWithFallbackE
  rw [hr]

/-- Witness for `C9_optimized_never_raises` on a concrete environment. -/
theorem C9_optimized_never_raises_witness :
    (∃ r, uploadImagesOptimizedE envOk = .ok r) ∧
    uploadImagesWithFallbackE envOk = uploadImagesOptimizedE envOk :=
  C9_optimized_never_raises envOk rfl

/-! ## C4 -/

/-- **C4**: a total pipeline exception before any per-file work (the batch
thumbnail stage throwing) marks every progress entry `error` with the same
batch-level message and returns `{success: false, images: [],
errors: [{index: -1, error}]}` — a single synthetic entry. -/
theorem C4_batch_start_failure (env : Env) (e : String) (hc : env.clientThrows = none)
    (hth : generateThumbnailsBatchE env = .error e) :
    ∃ s : PState, uploadImagesOptimizedE env =
        .ok (⟨false, [], [((-1 : Int), e)]⟩, s) ∧
      ∀ en ∈ s.progress, en.status = .error ∧ en.error = some e :=
  optimized_batch_failure env e hc hth

/-- Witness for `C4_batch_start_failure` on a concrete environment. -/
theorem C4_batch_start_failure_witness :
    ∃ s : PState, uploadImagesOptimizedE envThumbFail =
        .ok (⟨false, [], [((-1 : Int), "decode failed")]⟩, s) ∧
      ∀ en ∈ s.progress, en.status = .error ∧ en.error = some "decode failed" :=
  C4_batch_start_failure envThumbFail "decode failed" rfl rfl

/-! ## C3 -/

/-- **C3** (counterexample): with the image decoding subsystem unusable
(image 0's decode fails), `uploadImagesOptimized` does *not* raise — it
returns the synthetic batch-failure result — so `uploadImagesWithFallback`
returns that result unchanged and the fallback simple uploader is never
invoked, contradicting the claim that a thumbnail-stage failure surfaces as
a raised exception that triggers the fallback. -/
theorem C3_counterexample :
    generateThumbnailsBatchE envThumbFail = .error "decode failed" ∧
    (∃ s, uploadImagesOptimizedE envThumbFail =
      .ok (⟨false, [], [((-1 : Int), "decode failed")]⟩, s)) ∧
    uploadImagesWithFallbackE envThumbFail = uploadImagesOptimizedE envThumbFail :=
  ⟨rfl, ⟨_, rfl⟩, rfl⟩

/-- **C3** (amended): a thumbnail-stage failure is caught *inside*
`uploadImagesOptimized`, which returns the synthetic batch-failure result;
`uploadImagesWithFallback` passes any returned result — partial failure or
synthetic batch failure — through unchanged, so the fallback is invoked only
when `uploadImagesOptimized` itself raises, which (with a pure observer)
happens only when `createClient()` throws; and in that case the fallback's
own `createClient()` raises the same way. -/
theorem C3_amended_fallback_only_on_raise (env : Env) :
    (env.clientThrows = none →
      uploadImagesWithFallbackE env = uploadImagesOptimizedE env ∧
      ∀ e, generateThumbnailsBatchE env = .error e →
        ∃ s, uploadImagesWithFallbackE env =
          .ok (⟨false, [], [((-1 : Int), e)]⟩, s)) ∧
    (∀ e, env.clientThrows = some e →
      uploadImagesOptimizedE env = .error e ∧
      uploadImagesWithFallbackE env = uploadSimpleRun env) := by
  constructor
  · intro hc
    obtain ⟨r, hr⟩ := optimized_returns env hc
    have hpass : uploadImagesWithFallbackE env = uploadImagesOptimizedE env := by
      unfold uploadImagesWithFallbackE
      rw [hr]
    refine ⟨hpass, ?_⟩
    intro e hth
    obtain ⟨s, hs, _⟩ := optimized_batch_failure env e hc hth
    exact ⟨s, by rw [hpass, hs]⟩
  · intro e hce
    have hopt : uploadImagesOptimizedE env = .error e := by
      unfold uploadImagesOptimizedE
      rw [hce]
    refine ⟨hopt, ?_⟩
    unfold uploadImagesWithFallbackE
    rw [hopt]

/-- Witness for `C3_amended_fallback_only_on_raise` on concrete
environments: the pass-through half at `envThumbFail`, the raise half at
the same environment with a throwing client. -/
theorem C3_amended_fallback_only_on_raise_witness :
    (uploadImagesWithFallbackE envThumbFail = uploadImagesOptimizedE envThumbFail ∧
      ∃ s, uploadImagesWithFallbackE envThumbFail =
        .ok (⟨false, [], [((-1 : Int), "decode failed")]⟩, s)) ∧
    (uploadImagesOptimizedE { envThumbFail with clientThrows := some "boom" } = .error "boom" ∧
      uploadImagesWithFallbackE { envThumbFail with clientThrows := some "boom" } =
        uploadSimpleRun { envThumbFail with clientThrows := some "boom" }) :=
  ⟨⟨((C3_amended_fallback_only_on_raise envThumbFail).1 rfl).1,
    ((C3_amended_fallback_only_on_raise envThumbFail).1 rfl).2 "decode failed" rfl⟩,
    (C3_amended_fallback_only_on_raise _).2 "boom" rfl⟩

/-! ## C10 -/

/-- **C10**: the fallback branch performs no progress reporting at all:
whatever the per-file outcomes, its returned state has an empty snapshot
trace (the observer is never invoked) and no progress entries. -/
theorem C10_fallback_no_progress (env : Env) (r : UploadResult) (s : PState)
    (h : uploadSimpleRun env = .ok (r, s)) :
    s.trace = [] ∧ s.progress = [] := by
  unfold uploadSimpleRun at h
  cases hc : env.clientThrows with
  | some e => rw [hc] at h; cases h
  | none =>
    rw [hc] at h
    cases h
    exact ⟨rfl, rfl⟩

/-- Witness for `C10_fallback_no_progress` on a concrete environment. -/
theorem C10_fallback_no_progress_witness :
    ∃ r s, uploadSimpleRun envOk = .ok (r, s) ∧ s.trace = [] ∧ s.progress = [] :=
  ⟨_, _, rfl, C10_fallback_no_progress envOk _ _ rfl⟩

/-! ## Aggregation of per-image outcomes (lines 113–128) -/

/-- Success payload of one settled outcome. -/
def okData : OneResult → Option ImageData
  | .ok _ d => some d
  | .err _ _ => none

/-- Failure payload of one settled outcome. -/
def errData : OneResult → Option (Int × String)
  | .ok _ _ => none
  | .err i m => some ((i : Int), m)

theorem collectErrors_eq (rs : List OneResult) : collectErrors rs = rs.filterMap errData := by
  suffices h : ∀ acc, rs.foldl (fun acc r =>
      match r with
      | .ok _ _ => acc
      | .err i m => acc ++ [((i : Int), m)]) acc = acc ++ rs.filterMap errData by
    simpa [collectErrors] using h []
  induction rs with
  | nil => intro acc; simp
  | cons r rs ih =>
    intro acc
    cases r <;> simp [errData, ih]

/-- `rs` holds one settled outcome per index, starting at `k`. -/
inductive Aligned : Nat → List OneResult → Prop
  | nil (k : Nat) : Aligned k []
  | ok (k : Nat) (d : ImageData) {rs : List OneResult} :
      Aligned (k + 1) rs → Aligned k (.ok k d :: rs)
  | err (k : Nat) (m : String) {rs : List OneResult} :
      Aligned (k + 1) rs → Aligned k (.err k m :: rs)

theorem outcomes_aligned (env : Env) :
    ∀ (names : List String) (k : Nat), Aligned k (outcomes env k names) := by
  intro names
  induction names with
  | nil => intro k; exact .nil k
  | cons name rest ih =>
    intro k
    unfold outcomes oneOutcome
    cases h : firstPutError env (imagePaths env.propertyId (env.now k + k) (fileExt name)) <;>
      simp only [h]
    · exact .ok k _ (ih (k + 1))
    · exact .err k _ (ih (k + 1))

theorem outcomes_length (env : Env) :
    ∀ (names : List String) (k : Nat), (outcomes env k names).length = names.length := by
  intro names
  induction names with
  | nil => intro k; rfl
  | cons name rest ih => intro k; simp [outcomes, ih]

theorem outcomes_get? (env : Env) :
    ∀ (names : List String) (k i : Nat) (name : String), names.get? i = some name →
      (outcomes env k names).get? i = some (oneOutcome env (k + i) name) := by
  intro names
  induction names with
  | nil => intro k i name h; simp at h
  | cons nm rest ih =>
    intro k i name h
    cases i with
    | zero => simp at h; subst h; simp [outcomes]
    | succ i =>
      simp only [List.get?_cons_succ] at h
      have := ih (k + 1) i name h
      simpa [outcomes, Nat.add_assoc, Nat.add_comm 1 i] using this

/-- Setting the slot right after a prefix. -/
theorem set_after_prefix {α : Type} (pre : List α) (x y : α) (post : List α) :
    (pre ++ x :: post).set pre.length y = pre ++ y :: post := by
  induction pre with
  | nil => rfl
  | cons a pre ih =>
    show a :: (pre ++ x :: post).set pre.length y = a :: (pre ++ y :: post)
    rw [ih]

/-- The sparse `results[index] = data` assignment over an aligned outcome
list fills the slots in order. -/
theorem assignImages_aux :
    ∀ {k : Nat} {rs : List OneResult}, Aligned k rs →
      ∀ (pre : List (Option ImageData)), pre.length = k →
        rs.foldl (fun acc r =>
            match r with
            | .ok i d => acc.set i (some d)
            | .err _ _ => acc) (pre ++ List.replicate rs.length none) =
          pre ++ rs.map okData := by
  intro k rs hal
  induction hal with
  | nil k => intro pre hpre; simp
  | ok k d hrs ih =>
    intro pre hpre
    rename_i rs'
    show List.foldl _ ((pre ++ List.replicate (rs'.length + 1) none).set k (some d)) rs' = _
    rw [show List.replicate (rs'.length + 1) (none : Option ImageData) =
        none :: List.replicate rs'.length none from rfl,
      ← hpre, set_after_prefix]
    have := ih (pre ++ [some d]) (by simp [hpre])
    simpa [okData] using this
  | err k m hrs ih =>
    intro pre hpre
    rename_i rs'
    show List.foldl _ (pre ++ List.replicate (rs'.length + 1) none) rs' = _
    rw [show List.replicate (rs'.length + 1) (none : Option ImageData) =
        none :: List.replicate rs'.length none from rfl]
    have := ih (pre ++ [none]) (by simp [hpre])
    simpa [okData] using this

theorem assignImages_eq (rs : List OneResult) (h : Aligned 0 rs) :
    assignImages rs.length rs = rs.map okData := by
  have := assignImages_aux h [] rfl
  simpa [assignImages] using this

theorem okData_errData_length (rs : List OneResult) :
    (rs.filterMap okData).length + (rs.filterMap errData).length = rs.length := by
  induction rs with
  | nil => rfl
  | cons r rs ih =>
    cases r <;> simp [okData, errData] <;> omega

/-- Characterization of a run whose thumbnail stage succeeded: the result is
built from the pure per-image outcomes — compacted successes in index order,
error entries in index order, success flag iff no error. -/
theorem optimized_run_result (env : Env) (hc : env.clientThrows = none)
    (hth : generateThumbnailsBatchE env = .ok ()) :
    ∃ s, uploadImagesOptimizedE env =
      .ok (⟨((outcomes env 0 env.files).filterMap errData).isEmpty,
            (outcomes env 0 env.files).filterMap okData,
            (outcomes env 0 env.files).filterMap errData⟩, s) := by
  have hlen : (outcomes env 0 env.files).length = env.files.length :=
    outcomes_length env env.files 0
  have himg : (assignImages env.files.length (outcomes env 0 env.files)).filterMap id =
      (outcomes env 0 env.files).filterMap okData := by
    rw [← hlen, assignImages_eq _ (outcomes_aligned env env.files 0), List.filterMap_map]
    simp [Function.comp]
  rw [← himg, ← collectErrors_eq]
  unfold uploadImagesOptimizedE
  rw [hc, hth]
  simp only [runUploadsAux_fst]
  exact ⟨_, rfl⟩

/-! ## C2 -/

/-- **C2**: for every batch with no batch-start error, the result satisfies
`images.length + errors.length = N`, `success ↔ errors = []`, and `images` /
`errors` are exactly the successful / failed per-image outcomes, compacted
in ascending order of original file index. -/
theorem C2_result_aggregation (env : Env) (hc : env.clientThrows = none)
    (hth : generateThumbnailsBatchE env = .ok ()) :
    ∃ r s, uploadImagesOptimizedE env = .ok (r, s) ∧
      r.images.length + r.errors.length = env.files.length ∧
      (r.success = true ↔ r.errors = []) ∧
      r.images = (outcomes env 0 env.files).filterMap okData ∧
      r.errors = (outcomes env 0 env.files).filterMap errData := by
  obtain ⟨s, hs⟩ := optimized_run_result env hc hth
  refine ⟨_, s, hs, ?_, ?_, rfl, rfl⟩
  · rw [okData_errData_length, outcomes_length]
  · cases h : (outcomes env 0 env.files).filterMap errData <;> simp [h]

/-- Witness for `C2_result_aggregation` on a concrete environment. -/
theorem C2_result_aggregation_witness :
    ∃ r s, uploadImagesOptimizedE envOk = .ok (r, s) ∧
      r.images.length + r.errors.length = envOk.files.length ∧
      (r.success = true ↔ r.errors = []) ∧
      r.images = (outcomes envOk 0 envOk.files).filterMap okData ∧
      r.errors = (outcomes envOk 0 envOk.files).filterMap errData :=
  C2_result_aggregation envOk rfl rfl

/-! ## C1 -/

/-- **C1** (counterexample): in `envThumbFail` image 0's decode fails and
image 1 would succeed, yet the batch returns no image records at all and a
single synthetic `index = -1` error — image 1 is aborted and image 0's
failure is not recorded as a per-image entry, contradicting the claim that
one image's decode failure is non-fatal to its siblings. -/
theorem C1_counterexample :
    ∃ r s, uploadImagesOptimizedE envThumbFail = .ok (r, s) ∧
      r.images = [] ∧ r.errors = [((-1 : Int), "decode failed")] := by
  exact ⟨_, _, rfl, rfl, rfl⟩

/-- Every element of the outcome list is the pure outcome of one indexed file. -/
theorem outcomes_mem (env : Env) :
    ∀ (names : List String) (k : Nat), ∀ r ∈ outcomes env k names,
      ∃ j nm, names.get? j = some nm ∧ r = oneOutcome env (k + j) nm := by
  intro names
  induction names with
  | nil => intro k r hr; simp [outcomes] at hr
  | cons nm rest ih =>
    intro k r hr
    rcases List.mem_cons.mp hr with h | h
    · exact ⟨0, nm, rfl, by simpa using h⟩
    · obtain ⟨j, nm', hj, hh⟩ := ih (k + 1) r h
      exact ⟨j + 1, nm', by simpa using hj, by rw [hh]; congr 1; omega⟩

/-- **C1** (amended): a failure of one image in the batch thumbnail stage is
fatal to the whole batch — `Promise.all` rejects and the run returns the
synthetic `{index: -1}` batch failure, aborting all sibling images.  Only
failures in the per-image storage stage are non-fatal to siblings: with the
thumbnail stage succeeding, every image whose own four puts succeed gets its
record into `images`, and every image whose puts fail contributes exactly a
per-image entry to `errors`. -/
theorem C1_amended_failure_scope (env : Env) (hc : env.clientThrows = none) :
    (∀ e, generateThumbnailsBatchE env = .error e →
      ∃ s, uploadImagesOptimizedE env =
        .ok (⟨false, [], [((-1 : Int), e)]⟩, s)) ∧
    (generateThumbnailsBatchE env = .ok () →
      ∃ r s, uploadImagesOptimizedE env = .ok (r, s) ∧
        (∀ i nm d, env.files.get? i = some nm →
          oneOutcome env i nm = .ok i d → d ∈ r.images) ∧
        (∀ i nm m, env.files.get? i = some nm →
          oneOutcome env i nm = .err i m → ((i : Int), m) ∈ r.errors) ∧
        r.errors = (outcomes env 0 env.files).filterMap errData) := by
  constructor
  · intro e hth
    obtain ⟨s, hs, _⟩ := optimized_batch_failure env e hc hth
    exact ⟨s, hs⟩
  · intro hth
    obtain ⟨s, hs⟩ := optimized_run_result env hc hth
    refine ⟨_, s, hs, ?_, ?_, rfl⟩
    · intro i nm d hi ho
      have hmem : oneOutcome env i nm ∈ outcomes env 0 env.files := by
        have := outcomes_get? env env.files 0 i nm hi
        rw [Nat.zero_add] at this
        exact List.get?_mem this
      exact List.mem_filterMap.mpr ⟨oneOutcome env i nm, hmem, by rw [ho]; rfl⟩
    · intro i nm m hi ho
      have hmem : oneOutcome env i nm ∈ outcomes env 0 env.files := by
        have := outcomes_get? env env.files 0 i nm hi
        rw [Nat.zero_add] at this
        exact List.get?_mem this
      exact List.mem_filterMap.mpr ⟨oneOutcome env i nm, hmem, by rw [ho]; rfl⟩

/-- Witness for `C1_amended_failure_scope`: the batch-abort half at
`envThumbFail`, the per-image half at an environment where image 0's puts
fail but image 1's succeed. -/
theorem C1_amended_failure_scope_witness :
    (∃ s, uploadImagesOptimizedE envThumbFail =
      .ok (⟨false, [], [((-1 : Int), "decode failed")]⟩, s)) ∧
    (∃ r s, uploadImagesOptimizedE envOk = .ok (r, s) ∧
      (∀ i nm d, envOk.files.get? i = some nm →
        oneOutcome envOk i nm = .ok i d → d ∈ r.images) ∧
      (∀ i nm m, envOk.files.get? i = some nm →
        oneOutcome envOk i nm = .err i m → ((i : Int), m) ∈ r.errors) ∧
      r.errors = (outcomes envOk 0 envOk.files).filterMap errData) :=
  ⟨(C1_amended_failure_scope envThumbFail rfl).1 "decode failed" rfl,
    (C1_amended_failure_scope envOk rfl).2 rfl⟩

/-! ## C5 -/

/-- A successful per-image outcome carries exactly the four template paths
for that image's timestamp. -/
theorem oneOutcome_ok (env : Env) (i j : Nat) (nm : String) (d : ImageData)
    (h : oneOutcome env i nm = .ok j d) :
    j = i ∧ d = imagePaths env.propertyId (env.now i + i) (fileExt nm) := by
  simp only [oneOutcome] at h
  cases hf : firstPutError env (imagePaths env.propertyId (env.now i + i) (fileExt nm)) <;>
    simp only [hf] at h
  · injection h with h1 h2
    exact ⟨h1.symm, h2.symm⟩
  · cases h

/-- Every record placed by the sparse assignment came from a successful
outcome in the list. -/
theorem assign_fold_mem :
    ∀ (rs : List OneResult) (acc : List (Option ImageData)) (x : ImageData),
      some x ∈ rs.foldl (fun acc r =>
        match r with
        | .ok i d => acc.set i (some d)
        | .err _ _ => acc) acc →
      some x ∈ acc ∨ ∃ i, OneResult.ok i x ∈ rs := by
  intro rs
  induction rs with
  | nil => intro acc x h; exact Or.inl h
  | cons r rs ih =>
    intro acc x h
    cases r with
    | ok i d =>
      rcases ih (acc.set i (some d)) x h with h' | ⟨j, hj⟩
      · rcases List.mem_or_eq_of_mem_set h' with h'' | h''
        · exact Or.inl h''
        · exact Or.inr ⟨i, by injection h'' with h3; rw [h3]; exact List.mem_cons_self _ _⟩
      · exact Or.inr ⟨j, List.mem_cons_of_mem _ hj⟩
    | err i m =>
      rcases ih acc x h with h' | ⟨j, hj⟩
      · exact Or.inl h'
      · exact Or.inr ⟨j, List.mem_cons_of_mem _ hj⟩

theorem assignImages_mem (n : Nat) (rs : List OneResult) (x : ImageData)
    (hx : x ∈ (assignImages n rs).filterMap id) : ∃ i, OneResult.ok i x ∈ rs := by
  obtain ⟨a, ha, hax⟩ := List.mem_filterMap.mp hx
  have hax' : a = some x := hax
  subst hax'
  rcases assign_fold_mem rs (List.replicate n none) x ha with h | h
  · exact absurd (List.eq_of_mem_replicate h) (by simp)
  · exact h

/-- In the fallback, every successful outcome's record has all four fields
equal to the single uploaded path. -/
theorem uploadSimpleResults_ok_shape (env : Env) :
    ∀ (names : List String) (k i : Nat) (d : ImageData),
      OneResult.ok i d ∈ uploadSimpleResults env k names →
      d.small = d.original ∧ d.medium = d.original ∧ d.large = d.original := by
  intro names
  induction names with
  | nil => intro k i d h; simp [uploadSimpleResults] at h
  | cons nm rest ih =>
    intro k i d h
    rcases List.mem_cons.mp h with h | h
    · simp only [uploadSimpleOne] at h
      cases hp : env.putOutcome
          (env.propertyId ++ "/" ++ natRepr (env.now k + k) ++ "." ++ fileExt nm) <;>
        simp only [hp] at h
      · injection h.symm with h1 h2
        subst h2
        exact ⟨rfl, rfl, rfl⟩
      · cases h
    · exact ih (k + 1) i d h

/-- **C5**: every record produced by the optimized path has four pairwise
distinct storage paths; assuming the ambient clock is non-decreasing across
the batch, records of different images share no path at all (their
timestamps `Date.now() + index` differ); and every record produced by the
fallback simple uploader has its four fields equal to one single path. -/
theorem C5_path_distinctness (env : Env)
    (hmono : ∀ i j, i ≤ j → env.now i ≤ env.now j) :
    (∀ r s, uploadImagesOptimizedE env = .ok (r, s) →
      (∀ d ∈ r.images, (pathsOf d).Nodup) ∧
      (∀ d1 ∈ r.images, ∀ d2 ∈ r.images, d1 ≠ d2 →
        ∀ p ∈ pathsOf d1, ∀ q ∈ pathsOf d2, p ≠ q)) ∧
    (∀ r s, uploadSimpleRun env = .ok (r, s) →
      ∀ d ∈ r.images, d.small = d.original ∧ d.medium = d.original ∧
        d.large = d.original) := by
  constructor
  · intro r s hr
    cases hc : env.clientThrows with
    | some e =>
      exfalso
      unfold uploadImagesOptimizedE at hr
      rw [hc] at hr
      cases hr
    | none =>
      -- a record in `images` always comes from an indexed successful outcome
      have hfrom : ∀ d ∈ r.images, ∃ j nm, env.files.get? j = some nm ∧
          d = imagePaths env.propertyId (env.now j + j) (fileExt nm) := by
        cases hth : generateThumbnailsBatchE env with
        | error e =>
          obtain ⟨s', hs', _⟩ := optimized_batch_failure env e hc hth
          rw [hr] at hs'
          injection hs' with hs''
          injection hs'' with hr' hs'
          subst hr'
          intro d hd
          simp at hd
        | ok u =>
          cases u
          obtain ⟨s', hs'⟩ := optimized_run_result env hc hth
          rw [hr] at hs'
          injection hs' with hs''
          injection hs'' with hr' hs'
          subst hr'
          intro d hd
          obtain ⟨o, ho, hod⟩ := List.mem_filterMap.mp hd
          obtain ⟨j, nm, hj, rfl⟩ := outcomes_mem env env.files 0 o ho
          simp only [Nat.zero_add] at hod
          cases hok : oneOutcome env j nm with
          | ok a d' =>
            rw [hok] at hod
            have hd' : d' = d := by simpa [okData] using hod
            obtain ⟨rfl, hshape⟩ := oneOutcome_ok env j a nm d' hok
            exact ⟨a, nm, hj, by rw [← hd', hshape]⟩
          | err a m => rw [hok] at hod; simp [okData] at hod
      constructor
      · intro d hd
        obtain ⟨j, nm, _, rfl⟩ := hfrom d hd
        exact imagePaths_nodup _ _ _
      · intro d1 hd1 d2 hd2 hne p hp q hq
        obtain ⟨j1, nm1, hj1, rfl⟩ := hfrom d1 hd1
        obtain ⟨j2, nm2, hj2, rfl⟩ := hfrom d2 hd2
        have hjne : j1 ≠ j2 := by
          intro h
          subst h
          rw [hj1] at hj2
          injection hj2 with h
          subst h
          exact hne rfl
        have htne : env.now j1 + j1 ≠ env.now j2 + j2 := by
          rcases Nat.lt_or_ge j1 j2 with h | h
          · have := hmono j1 j2 (Nat.le_of_lt h)
            omega
          · have hlt : j2 < j1 := by omega
            have := hmono j2 j1 (Nat.le_of_lt hlt)
            omega
        exact imagePaths_cross env.propertyId (fileExt nm1) (fileExt nm2) htne p hp q hq
  · intro r s hr
    cases hc : env.clientThrows with
    | some e =>
      exfalso
      unfold uploadSimpleRun at hr
      rw [hc] at hr
      cases hr
    | none =>
      unfold uploadSimpleRun at hr
      rw [hc] at hr
      injection hr with hr'
      injection hr' with hr' _
      rw [← hr']
      intro d hd
      obtain ⟨i, hi⟩ := assignImages_mem env.files.length (uploadSimpleResults env 0 env.files) d hd
      exact uploadSimpleResults_ok_shape env env.files 0 i d hi

/-- Witness for `C5_path_distinctness` on a concrete environment. -/
theorem C5_path_distinctness_witness :
    ((∀ r s, uploadImagesOptimizedE envOk = .ok (r, s) →
      (∀ d ∈ r.images, (pathsOf d).Nodup) ∧
      (∀ d1 ∈ r.images, ∀ d2 ∈ r.images, d1 ≠ d2 →
        ∀ p ∈ pathsOf d1, ∀ q ∈ pathsOf d2, p ≠ q)) ∧
    (∀ r s, uploadSimpleRun envOk = .ok (r, s) →
      ∀ d ∈ r.images, d.small = d.original ∧ d.medium = d.original ∧
        d.large = d.original)) :=
  C5_path_distinctness envOk (fun _ _ _ => Nat.le_refl _)

/-! ## C6: per-entry progress lifecycle

The observable history of one entry is its value in the successive snapshots
handed to the observer.  The claim is an invariant over consecutive
snapshot values of one entry: progress never decreases except that it is 0
exactly at a transition into `error`, and `error` is terminal. -/

/-- The values of entry `i` across a list of snapshots. -/
def entryStates (trace : List Snapshot) (i : Nat) : List UploadProgress :=
  trace.filterMap fun snap => snap.find? fun e => e.imageIndex == i

/-- One admissible transition between consecutive observed values of the
same entry: terminal `error`, progress reset to 0 on the transition into
`error`, monotone progress otherwise. -/
def goodPair (e1 e2 : UploadProgress) : Prop :=
  (e1.status = .error → e2 = e1) ∧
  (e1.status ≠ .error → e2.status = .error → e2.progress = 0) ∧
  (e1.status ≠ .error → e2.status ≠ .error → e1.progress ≤ e2.progress)

theorem goodPair_refl (e : UploadProgress) : goodPair e e :=
  ⟨fun _ => rfl, fun h1 h2 => absurd h2 h1, fun _ _ => Nat.le_refl _⟩

/-- The fixed progress levels of the lifecycle: 0 while generating, 25 while
uploading, 100 when completed, 0 in error. -/
def statusProgressOK (e : UploadProgress) : Prop :=
  (e.status = .generating → e.progress = 0) ∧
  (e.status = .uploading → e.progress = 25) ∧
  (e.status = .completed → e.progress = 100) ∧
  (e.status = .error → e.progress = 0)

/-- The lifecycle invariant for entry `i`: the observed history is a chain
of admissible transitions at the fixed progress levels, and the last
observed value is the currently stored one. -/
def Inv (s : PState) (i : Nat) : Prop :=
  List.Chain' goodPair (entryStates s.trace i) ∧
  (entryStates s.trace i).getLast? = cur s i ∧
  (∀ e ∈ entryStates s.trace i, statusProgressOK e) ∧
  (∀ e, cur s i = some e → statusProgressOK e)

theorem find?_map_preserve (l : List UploadProgress) (g : UploadProgress → UploadProgress)
    (hg : ∀ e, (g e).imageIndex = e.imageIndex) (i : Nat) :
    (l.map g).find? (fun e => e.imageIndex == i) =
      Option.map g (l.find? fun e => e.imageIndex == i) := by
  induction l with
  | nil => rfl
  | cons e l ih =>
    by_cases h : e.imageIndex = i
    · rw [List.map_cons, List.find?_cons_of_pos _ (by simp [hg, h]),
        List.find?_cons_of_pos _ (by simp [h])]
      rfl
    · rw [List.map_cons, List.find?_cons_of_neg _ (by simp [hg, h]),
        List.find?_cons_of_neg _ (by simp [h]), ih]

theorem cur_mem_index (s : PState) (i : Nat) (e : UploadProgress) (h : cur s i = some e) :
    e.imageIndex = i := by
  have := List.find?_some h
  simpa using this

theorem entryStates_append (t : List Snapshot) (snap : Snapshot) (i : Nat) :
    entryStates (t ++ [snap]) i =
      entryStates t i ++ (snap.find? fun e => e.imageIndex == i).toList := by
  unfold entryStates
  rw [List.filterMap_append]
  congr 1

/-- Effect of one update-then-notify step on the stored entries. -/
theorem cur_step (s : PState) (j : Nat) (f : UploadProgress → UploadProgress)
    (hf : ∀ e, (f e).imageIndex = e.imageIndex) (i : Nat) :
    cur (step s j f) i =
      Option.map (fun e => if e.imageIndex = j then f e else e) (cur s i) := by
  show (updateEntry s.progress j f).find? (fun e => e.imageIndex == i) = _
  unfold updateEntry
  exact find?_map_preserve s.progress _
    (fun e => by by_cases h : e.imageIndex = j <;> simp [h, hf]) i

theorem trace_step (s : PState) (j : Nat) (f : UploadProgress → UploadProgress) :
    (step s j f).trace = s.trace ++ [updateEntry s.progress j f] := rfl

/-- One update-then-notify step preserves the lifecycle invariant, provided
the update of the touched entry is an admissible transition. -/
theorem step_inv (s : PState) (j : Nat) (f : UploadProgress → UploadProgress)
    (hf : ∀ e, (f e).imageIndex = e.imageIndex)
    (hrel : ∀ e, cur s j = some e → goodPair e (f e) ∧ statusProgressOK (f e))
    (i : Nat) (h : Inv s i) :
    Inv (step s j f) i ∧ (i ≠ j → cur (step s j f) i = cur s i) ∧
      cur (step s j f) j = Option.map f (cur s j) := by
  obtain ⟨hch, hlast, hmem, hcur⟩ := h
  have hges : entryStates (step s j f).trace i =
      entryStates s.trace i ++ (cur (step s j f) i).toList := by
    rw [trace_step, entryStates_append]
    rfl
  have hcsi := cur_step s j f hf i
  have hcsj := cur_step s j f hf j
  have hmapj : cur (step s j f) j = Option.map f (cur s j) := by
    rw [hcsj]
    cases hc : cur s j with
    | none => rfl
    | some e =>
      have := cur_mem_index s j e hc
      simp [this]
  have hne : i ≠ j → cur (step s j f) i = cur s i := by
    intro hij
    rw [hcsi]
    cases hc : cur s i with
    | none => rfl
    | some e =>
      have := cur_mem_index s i e hc
      simp [this, hij]
  refine ⟨?_, hne, hmapj⟩
  by_cases hij : i = j
  · subst hij
    cases hc : cur s i with
    | none =>
      rw [hc] at hlast
      have hcur' : cur (step s i f) i = none := by rw [hmapj, hc]; rfl
      refine ⟨?_, ?_, ?_, ?_⟩
      · rw [hges, hcur']
        simpa using hch
      · rw [hges, hcur']
        simpa using hlast
      · intro e he
        rw [hges, hcur'] at he
        exact hmem e (by simpa using he)
      · intro e he
        rw [hcur'] at he
        cases he
    | some e =>
      obtain ⟨hgp, hsp⟩ := hrel e hc
      have hcur' : cur (step s i f) i = some (f e) := by rw [hmapj, hc]; rfl
      rw [hc] at hlast hcur
      refine ⟨?_, ?_, ?_, ?_⟩
      · rw [hges, hcur']
        refine List.Chain'.append hch (List.chain'_singleton _) ?_
        intro x hx y hy
        rw [hlast] at hx
        simp at hx hy
        subst hx
        subst hy
        exact hgp
      · rw [hges, hcur']
        simp
      · intro x hx
        rw [hges, hcur'] at hx
        simp only [Option.toList, List.mem_append] at hx
        rcases hx with hx | hx
        · exact hmem x hx
        · simp at hx
          rw [hx]
          exact hsp
      · intro x hx
        rw [hcur'] at hx
        injection hx with hx
        rw [← hx]
        exact hsp
  · have hcur' := hne hij
    cases hc : cur s i with
    | none =>
      rw [hc] at hlast
      rw [hc] at hcur'
      refine ⟨?_, ?_, ?_, ?_⟩
      · rw [hges, hcur']
        simpa using hch
      · rw [hges, hcur']
        simpa using hlast
      · intro e he
        rw [hges, hcur'] at he
        exact hmem e (by simpa using he)
      · intro e he
        rw [hcur'] at he
        cases he
    | some e =>
      rw [hc] at hlast hcur hcur'
      refine ⟨?_, ?_, ?_, ?_⟩
      · rw [hges, hcur']
        refine List.Chain'.append hch (List.chain'_singleton _) ?_
        intro x hx y hy
        rw [hlast] at hx
        simp at hx hy
        subst hx
        subst hy
        exact goodPair_refl e
      · rw [hges, hcur']
        simp
      · intro x hx
        rw [hges, hcur'] at hx
        simp only [Option.toList, List.mem_append] at hx
        rcases hx with hx | hx
        · exact hmem x hx
        · simp at hx
          rw [hx]
          exact hcur e rfl
      · intro x hx
        rw [hcur'] at hx
        injection hx with hx
        rw [← hx]
        exact hcur e rfl

/-- One per-image task preserves the lifecycle invariant when its entry is
still `generating`, and leaves all other entries untouched. -/
theorem uploadOne_inv (env : Env) (k : Nat) (name : String) (s : PState)
    (hinv : ∀ i, Inv s i)
    (hgen : ∀ e, cur s k = some e → e.status = .generating) :
    (∀ i, Inv (uploadOne env k name s).2 i) ∧
    (∀ i, i ≠ k → cur (uploadOne env k name s).2 i = cur s i) := by
  have hrel25 : ∀ e, cur s k = some e →
      goodPair e { e with status := Status.uploading, progress := 25 } ∧
      statusProgressOK { e with status := Status.uploading, progress := 25 } := by
    intro e he
    have hg := hgen e he
    have hp0 : e.progress = 0 := ((hinv k).2.2.2 e he).1 hg
    refine ⟨⟨?_, ?_, ?_⟩, ?_, ?_, ?_, ?_⟩
    · intro h; rw [hg] at h; exact Status.noConfusion h
    · intro _ h; exact Status.noConfusion h
    · intro _ _; show e.progress ≤ 25; omega
    · intro h; exact Status.noConfusion h
    · intro _; rfl
    · intro h; exact Status.noConfusion h
    · intro h; exact Status.noConfusion h
  have h1 := fun i => step_inv s k
    (fun e => { e with status := Status.uploading, progress := 25 }) (fun _ => rfl)
    hrel25 i (hinv i)
  have hup1 : ∀ e, cur (step s k
      (fun e => { e with status := Status.uploading, progress := 25 })) k = some e →
      e.status = Status.uploading ∧ e.progress = 25 := by
    intro e he
    rw [(h1 k).2.2] at he
    cases hc : cur s k with
    | none => rw [hc] at he; cases he
    | some e0 =>
      rw [hc] at he
      injection he with he
      rw [← he]
      exact ⟨rfl, rfl⟩
  cases hfp : firstPutError env (imagePaths env.propertyId (env.now k + k) (fileExt name)) with
  | none =>
    have hrelC : ∀ e, cur (step s k
        (fun e => { e with status := Status.uploading, progress := 25 })) k = some e →
        goodPair e { e with progress := 100, status := Status.completed } ∧
        statusProgressOK { e with progress := 100, status := Status.completed } := by
      intro e he
      obtain ⟨hst, hpr⟩ := hup1 e he
      refine ⟨⟨?_, ?_, ?_⟩, ?_, ?_, ?_, ?_⟩
      · intro h; rw [hst] at h; exact Status.noConfusion h
      · intro _ h; exact Status.noConfusion h
      · intro _ _; show e.progress ≤ 100; omega
      · intro h; exact Status.noConfusion h
      · intro h; exact Status.noConfusion h
      · intro _; rfl
      · intro h; exact Status.noConfusion h
    have h2 := fun i => step_inv (step s k
        (fun e => { e with status := Status.uploading, progress := 25 })) k
      (fun e => { e with progress := 100, status := Status.completed }) (fun _ => rfl)
      hrelC i (h1 i).1
    have hres : (uploadOne env k name s).2 = step (step s k
        (fun e => { e with status := Status.uploading, progress := 25 })) k
        (fun e => { e with progress := 100, status := Status.completed }) := by
      simp only [uploadOne, hfp]
    constructor
    · intro i
      rw [hres]
      exact (h2 i).1
    · intro i hik
      rw [hres, (h2 i).2.1 hik, (h1 i).2.1 hik]
  | some msg =>
    have hrelE : ∀ e, cur (step s k
        (fun e => { e with status := Status.uploading, progress := 25 })) k = some e →
        goodPair e { e with status := Status.error, error := some msg, progress := 0 } ∧
        statusProgressOK { e with status := Status.error, error := some msg, progress := 0 } := by
      intro e he
      obtain ⟨hst, hpr⟩ := hup1 e he
      refine ⟨⟨?_, ?_, ?_⟩, ?_, ?_, ?_, ?_⟩
      · intro h; rw [hst] at h; exact Status.noConfusion h
      · intro _ _; rfl
      · intro _ h; exact absurd rfl h
      · intro h; exact Status.noConfusion h
      · intro h; exact Status.noConfusion h
      · intro h; exact Status.noConfusion h
      · intro _; rfl
    have h2 := fun i => step_inv (step s k
        (fun e => { e with status := Status.uploading, progress := 25 })) k
      (fun e => { e with status := Status.error, error := some msg, progress := 0 })
      (fun _ => rfl) hrelE i (h1 i).1
    have hres : (uploadOne env k name s).2 = step (step s k
        (fun e => { e with status := Status.uploading, progress := 25 })) k
        (fun e => { e with status := Status.error, error := some msg, progress := 0 }) := by
      simp only [uploadOne, hfp]
    constructor
    · intro i
      rw [hres]
      exact (h2 i).1
    · intro i hik
      rw [hres, (h2 i).2.1 hik, (h1 i).2.1 hik]

/-- Running the per-image tasks preserves the lifecycle invariant, provided
every still-pending entry is `generating`. -/
theorem runUploadsAux_inv (env : Env) :
    ∀ (names : List String) (k : Nat) (s : PState),
      (∀ i, Inv s i) →
      (∀ j, k ≤ j → ∀ e, cur s j = some e → e.status = .generating) →
      ∀ i, Inv (runUploadsAux env k names s).2 i := by
  intro names
  induction names with
  | nil => intro k s hinv _ i; exact hinv i
  | cons nm rest ih =>
    intro k s hinv hgen i
    have h1 := uploadOne_inv env k nm s hinv (hgen k (Nat.le_refl k))
    have hgen' : ∀ j, k + 1 ≤ j → ∀ e,
        cur (uploadOne env k nm s).2 j = some e → e.status = .generating := by
      intro j hj e he
      rw [h1.2 j (by omega)] at he
      exact hgen j (by omega) e he
    have := ih (k + 1) (uploadOne env k nm s).2 h1.1 hgen' i
    simpa [runUploadsAux] using this

theorem initProgressAux_mem :
    ∀ (names : List String) (k : Nat), ∀ e ∈ initProgressAux k names,
      e.progress = 0 ∧ e.status = .generating := by
  intro names
  induction names with
  | nil => intro k e he; cases he
  | cons nm rest ih =>
    intro k e he
    rcases List.mem_cons.mp he with h | h
    · rw [h]; exact ⟨rfl, rfl⟩
    · exact ih (k + 1) e h

/-- The state after the initial snapshot satisfies the invariant and every
stored entry is `generating`. -/
theorem init_inv (files : List String) (i : Nat) :
    Inv (emit (⟨initProgress files, []⟩ : PState)).2 i ∧
    ∀ e, cur (emit (⟨initProgress files, []⟩ : PState)).2 i = some e →
      e.status = .generating := by
  have hcur : cur (emit (⟨initProgress files, []⟩ : PState)).2 i =
      (initProgress files).find? (fun e => e.imageIndex == i) := rfl
  have hes : entryStates (emit (⟨initProgress files, []⟩ : PState)).2.trace i =
      ((initProgress files).find? (fun e => e.imageIndex == i)).toList := rfl
  cases hf : (initProgress files).find? (fun e => e.imageIndex == i) with
  | none =>
    refine ⟨⟨?_, ?_, ?_, ?_⟩, ?_⟩
    · rw [hes, hf]; exact List.chain'_nil
    · rw [hes, hf, hcur, hf]; rfl
    · intro e he; rw [hes, hf] at he; cases he
    · intro e he; rw [hcur, hf] at he; cases he
    · intro e he; rw [hcur, hf] at he; cases he
  | some e =>
    have hmem := List.mem_of_find?_eq_some hf
    obtain ⟨hp0, hgen⟩ := initProgressAux_mem files 0 e hmem
    have hsok : statusProgressOK e := by
      refine ⟨fun _ => hp0, fun h => ?_, fun h => ?_, fun h => ?_⟩ <;>
        · rw [hgen] at h; exact Status.noConfusion h
    refine ⟨⟨?_, ?_, ?_, ?_⟩, ?_⟩
    · rw [hes, hf]; exact List.chain'_singleton e
    · rw [hes, hf, hcur, hf]; rfl
    · intro x hx
      rw [hes, hf] at hx
      simp at hx
      rw [hx]
      exact hsok
    · intro x hx
      rw [hcur, hf] at hx
      injection hx with hx
      rw [← hx]
      exact hsok
    · intro x hx
      rw [hcur, hf] at hx
      injection hx with hx
      rw [← hx]
      exact hgen

/-- Emitting a whole-map update preserves the invariant when the update is
an admissible transition on every stored entry. -/
theorem emit_map_inv (s : PState) (g : UploadProgress → UploadProgress)
    (hg : ∀ e, (g e).imageIndex = e.imageIndex)
    (hrel : ∀ i e, cur s i = some e → goodPair e (g e) ∧ statusProgressOK (g e))
    (i : Nat) (h : Inv s i) :
    Inv (emit { s with progress := s.progress.map g }).2 i := by
  obtain ⟨hch, hlast, hmem, hcur⟩ := h
  have hcur' : cur (emit { s with progress := s.progress.map g }).2 i =
      Option.map g (cur s i) := find?_map_preserve s.progress g hg i
  have hges : entryStates (emit { s with progress := s.progress.map g }).2.trace i =
      entryStates s.trace i ++ (Option.map g (cur s i)).toList := by
    show entryStates (s.trace ++ [s.progress.map g]) i = _
    rw [entryStates_append]
    congr 1
    exact congrArg Option.toList (find?_map_preserve s.progress g hg i)
  cases hc : cur s i with
  | none =>
    rw [hc] at hlast
    refine ⟨?_, ?_, ?_, ?_⟩
    · rw [hges, hc]; simpa using hch
    · rw [hges, hc, hcur', hc]; simpa using hlast
    · intro e he
      rw [hges, hc] at he
      exact hmem e (by simpa using he)
    · intro e he
      rw [hcur', hc] at he
      cases he
  | some e =>
    obtain ⟨hgp, hsp⟩ := hrel i e hc
    rw [hc] at hlast
    refine ⟨?_, ?_, ?_, ?_⟩
    · rw [hges, hc]
      refine List.Chain'.append hch (List.chain'_singleton _) ?_
      intro x hx y hy
      rw [hlast] at hx
      simp at hx hy
      subst hx
      subst hy
      exact hgp
    · rw [hges, hc, hcur', hc]
      simp
    · intro x hx
      rw [hges, hc] at hx
      simp only [Option.map_some', Option.toList, List.mem_append] at hx
      rcases hx with hx | hx
      · exact hmem x hx
      · simp at hx
        rw [hx]
        exact hsp
    · intro x hx
      rw [hcur', hc] at hx
      injection hx with hx
      rw [← hx]
      exact hsp

/-- **C6**: for every file index, over the sequence of snapshots handed to
the observer, the entry's progress is monotonically non-decreasing at the
fixed levels (0 generating, 25 uploading, 100 completed), except that it is
0 exactly at the transition into `error`; and `error` is terminal — once an
entry is `error` no later snapshot changes it. -/
theorem C6_progress_lifecycle (env : Env) (r : UploadResult) (s : PState)
    (h : uploadImagesOptimizedE env = .ok (r, s)) (i : Nat) :
    List.Chain' goodPair (entryStates s.trace i) ∧
    ∀ e ∈ entryStates s.trace i, statusProgressOK e := by
  cases hc : env.clientThrows with
  | some e =>
    exfalso
    unfold uploadImagesOptimizedE at h
    rw [hc] at h
    cases h
  | none =>
    unfold uploadImagesOptimizedE at h
    rw [hc] at h
    have hini := init_inv env.files
    cases hth : generateThumbnailsBatchE env with
    | error msg =>
      rw [hth] at h
      injection h with h'
      injection h' with _ hs
      have hrel : ∀ j e, cur (emit (⟨initProgress env.files, []⟩ : PState)).2 j = some e →
          goodPair e { e with status := Status.error, error := some msg } ∧
          statusProgressOK { e with status := Status.error, error := some msg } := by
        intro j e he
        have hgen := (hini j).2 e he
        have hp0 : e.progress = 0 := ((hini j).1.2.2.2 e he).1 hgen
        refine ⟨⟨?_, ?_, ?_⟩, ?_, ?_, ?_, ?_⟩
        · intro hx; rw [hgen] at hx; exact Status.noConfusion hx
        · intro _ _; exact hp0
        · intro _ hx; exact absurd rfl hx
        · intro hx; exact Status.noConfusion hx
        · intro hx; exact Status.noConfusion hx
        · intro hx; exact Status.noConfusion hx
        · intro _; exact hp0
      have := emit_map_inv (emit (⟨initProgress env.files, []⟩ : PState)).2
        (fun e => { e with status := Status.error, error := some msg })
        (fun _ => rfl) hrel i (hini i).1
      rw [← hs]
      exact ⟨this.1, this.2.2.1⟩
    | ok u =>
      cases u
      rw [hth] at h
      injection h with h'
      injection h' with _ hs
      have := runUploadsAux_inv env env.files 0 (emit (⟨initProgress env.files, []⟩ : PState)).2
        (fun j => (hini j).1) (fun j _ => (hini j).2) i
      rw [← hs]
      exact ⟨this.1, this.2.2.1⟩

/-- Witness for `C6_progress_lifecycle` on a concrete environment. -/
theorem C6_progress_lifecycle_witness :
    ∃ r s, uploadImagesOptimizedE envOk = .ok (r, s) ∧
      List.Chain' goodPair (entryStates s.trace 0) ∧
      ∀ e ∈ entryStates s.trace 0, statusProgressOK e :=
  ⟨_, _, rfl, C6_progress_lifecycle envOk _ _ rfl 0⟩

end HonduCasa
